import Mathlib

/-!
# Verification of the PDF viewer's text-layer search core

Shallow embedding of the search matcher, highlight clearing, global search
navigation, viewport projection and zoom clamping of the react-pdf-viewer
repository, together with proofs settling the frozen claims about its
specification.

Strings are modelled as `List Char`; the JavaScript scan loops (which use
`String.indexOf` / `RegExp.exec` with a moving cursor) are modelled by
fuel-based structural recursions whose fuel is provably sufficient, so that
all definitions evaluate by `decide`/`rfl`.
-/

namespace PdfViewer

/-- ASCII lower-casing of a string, modelling JavaScript's
`String.prototype.toLowerCase` on the ASCII range. -/
def lowerStr (s : List Char) : List Char := s.map Char.toLower

/-- Whitespace as recognised by JavaScript `String.prototype.trim`
(restricted to the ASCII range). -/
def isJsSpace (c : Char) : Bool :=
  c = ' ' || c = '\t' || c = '\n' || c = '\r' || c = '\x0b' || c = '\x0c'

/-- JavaScript `String.prototype.trim`: strip leading and trailing whitespace. -/
def jsTrim (s : List Char) : List Char :=
  ((s.dropWhile isJsSpace).reverse.dropWhile isJsSpace).reverse

/-- One step of the JavaScript forward search: starting at position `i`, try
`fuel` consecutive positions and return the first at which `pred` holds.
`findPosFrom pred f i` scans positions `i, i+1, …, i+f-1`. -/
def findPosFrom (pred : Nat → Bool) : Nat → Nat → Option Nat
  | 0, _ => none
  | fuel + 1, i => if pred i then some i else findPosFrom pred fuel (i + 1)

/-- JavaScript `text.indexOf(pat, i)` for a nonempty pattern: the least
position `j ≥ i` at which `pat` occurs in `text`, or `none`.
(For the empty pattern JavaScript returns `min i (text.length)`; every call
site guards the query with `trim`, so the pattern is never empty.) -/
def indexOfFrom (text pat : List Char) (i : Nat) : Option Nat :=
  findPosFrom (fun j => pat.isPrefixOf (text.drop j)) (text.length + 1 - i) i

/-- The JavaScript `while` scan loop shared in shape by `searchInPage`,
`searchInPagePDFJS` and `searchInPageAdvanced`: repeatedly find the next
position `j ≥ i` (with `j ≤ limit`) where `pred` holds, record it, and resume
from `j + step`.  Structural recursion on `fuel`. -/
def scanPosF (pred : Nat → Bool) (limit step : Nat) : Nat → Nat → List Nat
  | _, 0 => []
  | i, fuel + 1 =>
    match findPosFrom pred (limit + 1 - i) i with
    | none => []
    | some j => j :: scanPosF pred limit step (j + step) fuel

/-- The scan loop with enough fuel: with `step ≥ 1` the cursor strictly
increases and stays ≤ `limit + step`, so `limit + 2 - i` iterations always
suffice. -/
def scanPositions (pred : Nat → Bool) (limit step i : Nat) : List Nat :=
  scanPosF pred limit step i (limit + 2 - i)

/-- Substring occurrence test: `pat` occurs in `text` at position `j`. -/
def substrOcc (text pat : List Char) (j : Nat) : Bool :=
  pat.isPrefixOf (text.drop j)

/-- JavaScript `\w` word character: ASCII letter, digit or underscore. -/
def isWordChar (c : Char) : Bool :=
  ('a' ≤ c && c ≤ 'z') || ('A' ≤ c && c ≤ 'Z') || ('0' ≤ c && c ≤ '9') || c = '_'

/-- Whether the character at position `p` of `text` is a word character
(positions outside the string count as non-word). -/
def wordCharAt (text : List Char) (p : Nat) : Bool :=
  match text[p]? with
  | some c => isWordChar c
  | none => false

/-- JavaScript regex `\b`: a word boundary sits at position `p` iff the
word-character status differs between positions `p-1` and `p` (the virtual
positions before the string and after it are non-word). -/
def boundaryAt (text : List Char) (p : Nat) : Bool :=
  (if p = 0 then false else wordCharAt text (p - 1)) != wordCharAt text p

/-- Matching of the regex `\bq\b` (with the query regex-escaped, hence
matching `q` literally) at position `p` of `text`; `matchCase = false`
models the `i` flag by ASCII case folding.  This is the semantics of the
escaped-literal word-boundary regex built in `searchInPage`'s whole-word
branch. -/
def wwOccAt (text q : List Char) (matchCase : Bool) (p : Nat) : Bool :=
  decide (p + q.length ≤ text.length) &&
  (if matchCase then (text.drop p).take q.length == q
   else lowerStr ((text.drop p).take q.length) == lowerStr q) &&
  boundaryAt text p && boundaryAt text (p + q.length)

/-- A per-fragment search match as produced by `searchInPage`
(`SearchMatch` in the source). -/
structure SMatch where
  itemIndex : Nat
  matchIndex : Nat
  text : List Char
  fullText : List Char
deriving DecidableEq, Repr

/-- `searchInPage(textContent, query, matchCase, wholeWords)`: per-fragment
search.  Whole-word mode runs the escaped-literal word-boundary regex over
each fragment, advancing past each match; substring mode scans the
(optionally case-folded) fragment text for non-overlapping occurrences,
advancing the cursor by `query.length` after each hit. -/
def searchInPage (items : List (List Char)) (query : List Char)
    (matchCase wholeWords : Bool) : List SMatch :=
  if jsTrim query = [] then [] else
  items.enum.flatMap (fun p =>
    let itemIndex := p.1
    let text := p.2
    if text = [] then [] else
    if wholeWords then
      (scanPositions (wwOccAt text query matchCase) text.length query.length 0).map
        (fun m => ⟨itemIndex, m, (text.drop m).take query.length, text⟩)
    else
      let normalizedQuery := if matchCase then query else lowerStr query
      let normalizedText := if matchCase then text else lowerStr text
      (scanPositions (substrOcc normalizedText normalizedQuery) text.length
          query.length 0).map
        (fun m => ⟨itemIndex, m, (text.drop m).take query.length, text⟩))

/-- A match as produced by `searchInPagePDFJS`.  The source's `end` field is
named `stop` here (`end` is a Lean keyword). -/
structure PMatch where
  textDivIndex : Nat
  start : Nat
  stop : Nat
  text : List Char
deriving DecidableEq, Repr

/-- `searchInPagePDFJS(textContent, query)`: per-fragment case-insensitive
substring scan advancing the cursor by one after each hit (overlapping
occurrences are all reported). -/
def searchInPagePDFJS (items : List (List Char)) (query : List Char) :
    List PMatch :=
  if jsTrim query = [] then [] else
  let normalizedQuery := lowerStr query
  items.enum.flatMap (fun p =>
    let text := p.2
    let normalizedText := lowerStr text
    (scanPositions (substrOcc normalizedText normalizedQuery) text.length 1 0).map
      (fun m => ⟨p.1, m, m + normalizedQuery.length,
                 (text.drop m).take normalizedQuery.length⟩))

/-- A cross-fragment match as produced by `searchInPageAdvanced`. -/
structure AMatch where
  text : List Char
  matchIndex : Nat
  matchEnd : Nat
  startItemIndex : Nat
  endItemIndex : Nat
  involvedItems : List Nat
  startCharIndex : Nat
  endCharIndex : Nat
deriving DecidableEq, Repr

/-- The parallel character-to-fragment index built by
`searchInPageAdvanced`: one `(itemIndex, charIndex)` pair per character of
the concatenated text, in order. -/
def charToItemMap (items : List (List Char)) : List (Nat × Nat) :=
  items.enum.flatMap (fun p => (List.range p.2.length).map (fun k => (p.1, k)))

/-- JavaScript `Set` insertion followed by `Array.from`: append each element
on first occurrence, keeping insertion order. -/
def dedupKeepFirst (l : List Nat) : List Nat :=
  l.foldl (fun acc x => if x ∈ acc then acc else acc ++ [x]) []

/-- `searchInPageAdvanced(textContent, query)`: concatenate all fragments,
case-fold, scan for occurrences advancing the cursor by one, and map each
hit back through the parallel index to fragment/offset coordinates. -/
def searchInPageAdvanced (items : List (List Char)) (query : List Char) :
    List AMatch :=
  if jsTrim query = [] then [] else
  let normalizedQuery := lowerStr query
  let fullText := items.flatten
  let ctm := charToItemMap items
  let normalizedText := lowerStr fullText
  (scanPositions (substrOcc normalizedText normalizedQuery) fullText.length 1 0).filterMap
    (fun matchIndex =>
      let matchEnd := matchIndex + normalizedQuery.length
      match ctm[matchIndex]?, ctm[matchEnd - 1]? with
      | some startMapping, some endMapping =>
        some ⟨(fullText.drop matchIndex).take (matchEnd - matchIndex),
              matchIndex, matchEnd,
              startMapping.1, endMapping.1,
              dedupKeepFirst (((ctm.take matchEnd).drop matchIndex).map Prod.fst),
              startMapping.2, endMapping.2⟩
      | _, _ => none)

/-- The scan over the concatenated page text performed by
`searchInPageAdvanced` (cursor step 1), as a list of hit positions. -/
def globalScan (items : List (List Char)) (pat : List Char) : List Nat :=
  scanPositions (substrOcc (lowerStr items.flatten) pat) items.flatten.length 1 0

/-- The per-fragment scans performed by `searchInPagePDFJS` (cursor step 1),
as a list of `(fragmentIndex, offset)` hit pairs. -/
def localScanPairs (items : List (List Char)) (pat : List Char) :
    List (Nat × Nat) :=
  items.enum.flatMap (fun p =>
    (scanPositions (substrOcc (lowerStr p.2) pat) p.2.length 1 0).map
      (fun j => (p.1, j)))

/-! ## Global search aggregation and navigation (`PDFViewer.tsx`)

The backing collection `allSearchMatches.current` is a list of
`(pageNumber, matches)` pairs; the per-page match type is abstract here. -/

/-- `Array.prototype.findIndex(p => p.pageNumber === pageNumber)`. -/
def findPageIdx {α : Type} (st : List (Nat × List α)) (pageNumber : Nat) :
    Option Nat :=
  match st with
  | [] => none
  | q :: rest =>
    if q.1 = pageNumber then some 0 else (findPageIdx rest pageNumber).map (· + 1)

/-- Stable insertion of one entry into a page-sorted list: an entry moves
left past exactly the entries with a strictly larger page number. -/
def insertByPage {α : Type} (x : Nat × List α) :
    List (Nat × List α) → List (Nat × List α)
  | [] => [x]
  | y :: ys => if x.1 < y.1 then x :: y :: ys else y :: insertByPage x ys

/-- JavaScript `Array.prototype.sort((a, b) => a.pageNumber - b.pageNumber)`:
the stable ascending sort by page number (insertion sort is stable, and the
stable ascending sort of a list is unique). -/
def sortByPage {α : Type} (l : List (Nat × List α)) : List (Nat × List α) :=
  l.foldr insertByPage []

/-- `updateSearchMatches(pageNumber, matches)`: upsert this page's match
list; replace in place when the page already reported, otherwise push and
re-sort by ascending page number. -/
def updateSearchMatches {α : Type} (st : List (Nat × List α)) (pageNumber : Nat)
    (ms : List α) : List (Nat × List α) :=
  match findPageIdx st pageNumber with
  | some i => st.set i (pageNumber, ms)
  | none => sortByPage (st ++ [(pageNumber, ms)])

/-- Total match count: `reduce((total, page) => total + page.matches.length, 0)`. -/
def totalCount {α : Type} (st : List (Nat × List α)) : Nat :=
  (st.map (fun q => q.2.length)).sum

/-- The aggregate state after a sequence of `reportPageMatches` calls,
starting from the empty collection. -/
def applyReports {α : Type} (reports : List (Nat × List α)) :
    List (Nat × List α) :=
  reports.foldl (fun st r => updateSearchMatches st r.1 r.2) []

/-- Strict comparison of entries by page number is vacuously antisymmetric. -/
instance {α : Type} : IsAntisymm (Nat × List α) (fun a b => a.1 < b.1) :=
  ⟨fun _ _ h1 h2 => absurd (h1.trans h2) (lt_irrefl _)⟩

/-- `handleSearchNext`: the new `currentSearchResult` — advance by one with
wraparound modulo the total; when the total is 0 the handler returns early
and the index is unchanged. -/
def handleSearchNext {α : Type} (st : List (Nat × List α)) (cur : Nat) : Nat :=
  let totalMatches := totalCount st
  if totalMatches = 0 then cur else (cur + 1) % totalMatches

/-- `handleSearchPrev`: the new `currentSearchResult` — retreat by one,
wrapping from 0 to `total - 1`; when the total is 0 the handler returns
early and the index is unchanged. -/
def handleSearchPrev {α : Type} (st : List (Nat × List α)) (cur : Nat) : Nat :=
  let totalMatches := totalCount st
  if totalMatches = 0 then cur
  else if cur = 0 then totalMatches - 1 else cur - 1

/-! ## Zoom scale handling (`PDFViewer.tsx`)

Scales are modelled as rationals; the numeric literals of the source are
exact decimal fractions. -/

/-- The clamp applied by `handleScaleChange`:
`Math.max(0.1, Math.min(10, newScale))`. -/
def clampScale (s : ℚ) : ℚ := max (1/10) (min 10 s)

/-- The PDF.js zoom levels used by `handleZoomIn` / `handleZoomOut`. -/
def zoomLevels : List ℚ :=
  [1/10, 1/4, 33/100, 1/2, 67/100, 3/4, 1, 5/4, 3/2, 2, 3, 4, 5, 10]

/-- `handleZoomIn`: the next higher zoom level, or
`Math.min(10, currentScale * 1.1)` when none is higher. -/
def handleZoomIn (s : ℚ) : ℚ :=
  match zoomLevels.find? (fun l => decide (s < l)) with
  | some l => l
  | none => min 10 (s * (11/10))

/-- `handleZoomOut`: the next lower zoom level (first match in the reversed
level list), or `Math.max(0.1, currentScale * 0.9)` when none is lower. -/
def handleZoomOut (s : ℚ) : ℚ :=
  match zoomLevels.reverse.find? (fun l => decide (l < s)) with
  | some l => l
  | none => max (1/10) (s * (9/10))

/-- `handleFitToWidth`: scale the A4 page width (595pt) into the container
width, clamped to `[0.1, 10]`. -/
def handleFitToWidth (containerWidth : ℚ) : ℚ :=
  clampScale (containerWidth / 595)

/-- `handleFitToPage`: fit both dimensions (A4 595×842pt), clamped. -/
def handleFitToPage (containerWidth containerHeight : ℚ) : ℚ :=
  clampScale (min (containerWidth / 595) (containerHeight / 842))

/-- `handleAutoZoom`: fit both dimensions with 10% padding, clamped. -/
def handleAutoZoom (containerWidth containerHeight : ℚ) : ℚ :=
  clampScale (min (containerWidth / 595) (containerHeight / 842) * (9/10))

/-! ## Viewport projection of a text run (`PageCanvas.tsx`)

`renderPage` composes each text item's transform with the viewport
transform via `pdfjsLib.Util.transform` (standard 2D affine composition,
PDF matrix convention `[m0 m1 m2 m3 m4 m5]`), then projects position,
rotation, scale and font size from the composed matrix. -/

/-- A 6-element 2D affine transform matrix `[m0 m1 m2 m3 m4 m5]`, mapping
`(x, y) ↦ (m0·x + m2·y + m4, m1·x + m3·y + m5)`. -/
structure Mat6 where
  m0 : ℝ
  m1 : ℝ
  m2 : ℝ
  m3 : ℝ
  m4 : ℝ
  m5 : ℝ

/-- `pdfjsLib.Util.transform(m1, m2)` (external collaborator, specified as
standard 2D affine matrix multiplication): the composite `m1 ∘ m2`, i.e.
apply `m2` first, then `m1`. -/
noncomputable def tfCompose (a b : Mat6) : Mat6 :=
  { m0 := a.m0 * b.m0 + a.m2 * b.m1
    m1 := a.m1 * b.m0 + a.m3 * b.m1
    m2 := a.m0 * b.m2 + a.m2 * b.m3
    m3 := a.m1 * b.m2 + a.m3 * b.m3
    m4 := a.m0 * b.m4 + a.m2 * b.m5 + a.m4
    m5 := a.m1 * b.m4 + a.m3 * b.m5 + a.m5 }

/-- `Math.atan2(y, x)`, modelled as the argument of the complex number
`x + y·i`. -/
noncomputable def atan2 (y x : ℝ) : ℝ := Complex.arg ⟨x, y⟩

/-- The geometry `renderPage` derives for one text div. -/
structure TextDivGeom where
  angle : ℝ
  scaleX : ℝ
  scaleY : ℝ
  fontSize : ℝ
  left : ℝ
  top : ℝ

/-- The projection performed in `renderPage` for each text item:
`tx = Util.transform(viewport.transform, textItem.transform)`, then
`angle = atan2(tx[1], tx[0])`, `scaleX = sqrt(tx[0]² + tx[1]²)`,
`scaleY = sqrt(tx[2]² + tx[3]²)`, `fontSize = sqrt(tx[2]² + tx[3]²)`,
`left = tx[4]`, `top = tx[5] - fontSize`. -/
noncomputable def projectTextItem (viewportTransform runTransform : Mat6) :
    TextDivGeom :=
  let tx := tfCompose viewportTransform runTransform
  let angle := atan2 tx.m1 tx.m0
  let scaleX := Real.sqrt (tx.m0 * tx.m0 + tx.m1 * tx.m1)
  let scaleY := Real.sqrt (tx.m2 * tx.m2 + tx.m3 * tx.m3)
  let fontSize := Real.sqrt (tx.m2 * tx.m2 + tx.m3 * tx.m3)
  { angle := angle
    scaleX := scaleX
    scaleY := scaleY
    fontSize := fontSize
    left := tx.m4
    top := tx.m5 - fontSize }

/-! ## Highlight rendering and clearing (DOM model)

A text-layer element is modelled by its `innerHTML` string.  Reading
`textContent` parses that markup and concatenates the text data (tags
contribute nothing, character entities decode); assigning `textContent`
stores a single text node, whose serialisation escapes `&`, `<`, `>`.
The parser handles exactly the constructs relevant to these fragments:
a `<` that is followed by an ASCII letter, `/`, `!` or `?` opens a tag that
runs to the next `>` (or, per the HTML tokenizer, is dropped at end of
input); any other `<` is literal text; `&amp;`/`&lt;`/`&gt;` decode and any
other `&` is literal. -/

/-- Serialisation of a text node, as produced by the source's `escapeHtml`
(which assigns `div.textContent` and reads back `div.innerHTML`). -/
def escapeHtml (t : List Char) : List Char :=
  t.flatMap (fun c =>
    if c = '&' then ("&amp;").toList
    else if c = '<' then ("&lt;").toList
    else if c = '>' then ("&gt;").toList
    else [c])

/-- Skip the remainder of a tag: drop up to and including the next `>`. -/
def skipTag (s : List Char) : List Char :=
  (s.dropWhile (fun c => !(c = '>'))).drop 1

/-- Fuel-driven text extraction from markup (the fuel `s.length` always
suffices since every step consumes at least one character). -/
def extractTextF : Nat → List Char → List Char
  | 0, _ => []
  | _ + 1, [] => []
  | fuel + 1, c :: rest =>
    if c = '<' then
      match rest with
      | [] => ['<']
      | d :: _ =>
        if d.isAlpha || d = '/' || d = '!' || d = '?' then
          extractTextF fuel (skipTag rest)
        else '<' :: extractTextF fuel rest
    else if c = '&' then
      if (("amp;").toList).isPrefixOf rest then '&' :: extractTextF fuel (rest.drop 4)
      else if (("lt;").toList).isPrefixOf rest then '<' :: extractTextF fuel (rest.drop 3)
      else if (("gt;").toList).isPrefixOf rest then '>' :: extractTextF fuel (rest.drop 3)
      else '&' :: extractTextF fuel rest
    else c :: extractTextF fuel rest

/-- `element.textContent` of parsed markup. -/
def extractText (s : List Char) : List Char := extractTextF s.length s

/-- A text-layer DOM element, identified by its markup. -/
structure DomElement where
  innerHTML : List Char
deriving DecidableEq

/-- Reading `element.textContent`. -/
def textContent (e : DomElement) : List Char := extractText e.innerHTML

/-- Assigning `element.textContent = t` (a single text node). -/
def setTextContent (t : List Char) : DomElement := ⟨escapeHtml t⟩

/-- `clearHighlightsInElement(element)`: save `textContent`, wipe
`innerHTML`, reassign the saved text. -/
def clearHighlightsInElement (e : DomElement) : DomElement :=
  setTextContent (textContent e)

/-- The class string `highlight[ selected] appended` of a highlight span. -/
def matchClasses (isSelected : Bool) : List Char :=
  ("highlight").toList ++ (if isSelected then (" selected").toList else []) ++
    (" appended").toList

/-- The markup of one highlight span; `widthStyle` is the measured inline
style (external canvas text measurement). -/
def highlightSpanHtml (classes widthStyle matchText : List Char) : List Char :=
  ("<span class=\"").toList ++ classes ++
    ("\" role=\"presentation\" style=\"").toList ++ widthStyle ++
    ("\">").toList ++ escapeHtml matchText ++ ("</span>").toList

/-- Stable insertion for the descending sort of matches. -/
def insertByMatchIndexDesc (x : SMatch) : List SMatch → List SMatch
  | [] => [x]
  | y :: ys =>
    if y.matchIndex < x.matchIndex then x :: y :: ys
    else y :: insertByMatchIndexDesc x ys

/-- `[...matches].sort((a, b) => b.matchIndex - a.matchIndex)`: stable
descending sort by start position. -/
def sortMatchesDesc (l : List SMatch) : List SMatch :=
  l.foldr insertByMatchIndexDesc []

/-- One iteration of the splicing loop in `highlightTextInElement`: replace
`html[matchStart, matchEnd)` by the highlight span (match text escaped, the
surrounding html left as is). -/
def spliceMatch (originalText widthStyle : List Char) (ms : List SMatch)
    (selectedMatchIndex : Int) (html : List Char) (m : SMatch) : List Char :=
  let matchStart := m.matchIndex
  let matchEnd := m.matchIndex + m.text.length
  let matchText := (originalText.drop matchStart).take (matchEnd - matchStart)
  let isSelected :=
    match ms.findIdx? (fun x => x == m) with
    | some k => decide ((k : Int) = selectedMatchIndex)
    | none => false
  let span := highlightSpanHtml (matchClasses isSelected) widthStyle matchText
  html.take matchStart ++ span ++ html.drop matchEnd

/-- `highlightTextInElement(element, matches, selectedMatchIndex)`: for an
empty match list, clear; otherwise read the original text, splice a span
over every match in descending position order, and assign the result to
`innerHTML`. -/
def highlightTextInElement (e : DomElement) (ms : List SMatch)
    (selectedMatchIndex : Int) (widthStyle : List Char) : DomElement :=
  if ms = [] then clearHighlightsInElement e
  else
    let originalText := textContent e
    let sortedMatches := sortMatchesDesc ms
    ⟨sortedMatches.foldl
      (spliceMatch originalText widthStyle ms selectedMatchIndex)
      originalText⟩

/-! ## Theorems -/

/-! ### The scan loop: soundness, spacing, and greedy completeness -/

/-- A successful forward search returns the least position in its window at
which the predicate holds. -/
theorem findPosFrom_eq_some {pred : Nat → Bool} :
    ∀ (fuel i j : Nat), findPosFrom pred fuel i = some j →
      i ≤ j ∧ j < i + fuel ∧ pred j = true ∧
        ∀ k, i ≤ k → k < j → pred k = false
  | 0, i, j, h => by simp [findPosFrom] at h
  | fuel + 1, i, j, h => by
    unfold findPosFrom at h
    by_cases hp : pred i = true
    · simp only [hp, if_true, Option.some.injEq] at h
      subst h
      exact ⟨le_refl _, by omega, hp, fun k hk1 hk2 => absurd hk1 (by omega)⟩
    · simp only [hp, if_false] at h
      obtain ⟨h1, h2, h3, h4⟩ := findPosFrom_eq_some fuel (i + 1) j h
      refine ⟨by omega, by omega, h3, ?_⟩
      intro k hk1 hk2
      rcases Nat.eq_or_lt_of_le hk1 with rfl | hk1'
      · simpa using hp
      · exact h4 k hk1' hk2

/-- A failed forward search means the predicate fails on the whole window. -/
theorem findPosFrom_eq_none {pred : Nat → Bool} :
    ∀ (fuel i : Nat), findPosFrom pred fuel i = none →
      ∀ k, i ≤ k → k < i + fuel → pred k = false
  | 0, _, _ => by intro k h1 h2; omega
  | fuel + 1, i, h => by
    unfold findPosFrom at h
    by_cases hp : pred i = true
    · simp [hp] at h
    · simp only [hp, if_false] at h
      intro k hk1 hk2
      rcases Nat.eq_or_lt_of_le hk1 with rfl | hk1'
      · simpa using hp
      · exact findPosFrom_eq_none fuel (i + 1) h k hk1' (by omega)

/-- Every reported scan position is in range and satisfies the predicate. -/
theorem scanPosF_sound {pred : Nat → Bool} {limit step : Nat} :
    ∀ (fuel i j : Nat), j ∈ scanPosF pred limit step i fuel →
      i ≤ j ∧ j ≤ limit ∧ pred j = true
  | 0, i, j, h => by simp [scanPosF] at h
  | fuel + 1, i, j, h => by
    unfold scanPosF at h
    cases hfind : findPosFrom pred (limit + 1 - i) i with
    | none => rw [hfind] at h; simp at h
    | some m =>
      rw [hfind] at h
      obtain ⟨h1, h2, h3, _⟩ := findPosFrom_eq_some _ _ _ hfind
      rcases List.mem_cons.mp h with rfl | h'
      · exact ⟨h1, by omega, h3⟩
      · obtain ⟨g1, g2, g3⟩ := scanPosF_sound fuel (m + step) j h'
        exact ⟨by omega, g2, g3⟩

/-- Consecutive scan positions are at least `step` apart: the cursor is
advanced past each match before searching again. -/
theorem scanPosF_chain {pred : Nat → Bool} {limit step : Nat} :
    ∀ (fuel i : Nat),
      List.Chain' (fun a b => a + step ≤ b) (scanPosF pred limit step i fuel)
  | 0, _ => by simp [scanPosF]
  | fuel + 1, i => by
    unfold scanPosF
    cases hfind : findPosFrom pred (limit + 1 - i) i with
    | none => simp
    | some m =>
      rw [List.chain'_cons']
      refine ⟨?_, scanPosF_chain fuel (m + step)⟩
      intro y hy
      exact (scanPosF_sound fuel (m + step) y (List.mem_of_mem_head? hy)).1

/-- Greedy completeness: with sufficient fuel, every in-range position
satisfying the predicate is covered by some reported position — it is
either reported itself or lies strictly inside the `step`-wide window of an
earlier reported position. -/
theorem scanPosF_complete {pred : Nat → Bool} {limit step : Nat}
    (hstep : 0 < step) :
    ∀ (fuel i j : Nat), limit + 2 - i ≤ fuel → i ≤ j → j ≤ limit →
      pred j = true →
      ∃ p ∈ scanPosF pred limit step i fuel, p ≤ j ∧ j < p + step
  | 0, i, j, hfuel, hij, hjl, _ => (False.elim (by omega))
  | fuel + 1, i, j, hfuel, hij, hjl, hp => by
    unfold scanPosF
    cases hfind : findPosFrom pred (limit + 1 - i) i with
    | none =>
      exfalso
      have := findPosFrom_eq_none _ _ hfind j hij (by omega)
      rw [this] at hp
      exact Bool.false_ne_true hp
    | some m =>
      obtain ⟨h1, h2, h3, h4⟩ := findPosFrom_eq_some _ _ _ hfind
      by_cases hcase : j < m + step
      · have hmj : m ≤ j := by
          by_contra hlt
          push_neg at hlt
          have := h4 j hij hlt
          rw [this] at hp
          exact Bool.false_ne_true hp
        exact ⟨m, List.mem_cons_self _ _, hmj, hcase⟩
      · push_neg at hcase
        obtain ⟨p, hmem, hple, hlt⟩ := scanPosF_complete hstep fuel (m + step) j
          (by omega) hcase hjl hp
        exact ⟨p, List.mem_cons_of_mem _ hmem, hple, hlt⟩

/-- Soundness of `scanPositions`. -/
theorem scanPositions_sound {pred : Nat → Bool} {limit step i j : Nat}
    (h : j ∈ scanPositions pred limit step i) :
    i ≤ j ∧ j ≤ limit ∧ pred j = true :=
  scanPosF_sound _ _ _ h

/-- Spacing of `scanPositions`. -/
theorem scanPositions_chain {pred : Nat → Bool} {limit step i : Nat} :
    List.Chain' (fun a b => a + step ≤ b) (scanPositions pred limit step i) :=
  scanPosF_chain _ _

/-- Greedy completeness of `scanPositions` (the fuel `limit + 2 - i` is
sufficient). -/
theorem scanPositions_complete {pred : Nat → Bool} {limit step i j : Nat}
    (hstep : 0 < step) (hij : i ≤ j) (hjl : j ≤ limit)
    (hp : pred j = true) :
    ∃ p ∈ scanPositions pred limit step i, p ≤ j ∧ j < p + step :=
  scanPosF_complete hstep _ _ _ (le_refl _) hij hjl hp

/-- Reported positions, pairwise: each pair is at least `step` apart. -/
theorem scanPositions_pairwise {pred : Nat → Bool} {limit step i : Nat} :
    List.Pairwise (fun a b => a + step ≤ b)
      (scanPositions pred limit step i) := by
  haveI : IsTrans Nat (fun a b => a + step ≤ b) :=
    ⟨fun a b c h1 h2 => by omega⟩
  exact List.chain'_iff_pairwise.mp scanPositions_chain

/-- With a positive step the reported positions are strictly increasing. -/
theorem scanPositions_pairwise_lt {pred : Nat → Bool} {limit step i : Nat}
    (hstep : 0 < step) :
    List.Pairwise (· < ·) (scanPositions pred limit step i) :=
  scanPositions_pairwise.imp (fun h => by omega)

/-- With step 1 the scan reports exactly the in-range positions satisfying
the predicate. -/
theorem scanPositions_one_mem {pred : Nat → Bool} {limit j : Nat} :
    j ∈ scanPositions pred limit 1 0 ↔ j ≤ limit ∧ pred j = true := by
  constructor
  · intro h
    obtain ⟨_, h2, h3⟩ := scanPositions_sound h
    exact ⟨h2, h3⟩
  · rintro ⟨h1, h2⟩
    obtain ⟨p, hmem, hple, hlt⟩ :=
      @scanPositions_complete pred limit 1 0 j (by norm_num) (Nat.zero_le _) h1 h2
    have hpj : p = j := by omega
    subst hpj
    exact hmem

/-! ### Enumeration glue -/

/-- Membership in `enum` is lookup. -/
theorem mem_enum_iff {β : Type} {l : List β} {i : Nat} {t : β} :
    (i, t) ∈ l.enum ↔ l[i]? = some t := by
  rw [List.mem_iff_getElem?]
  constructor
  · rintro ⟨n, hn⟩
    rw [List.getElem?_enum] at hn
    cases hl : l[n]? with
    | none => rw [hl] at hn; simp at hn
    | some a =>
      rw [hl] at hn
      simp only [Option.map_some', Option.some.injEq, Prod.mk.injEq] at hn
      obtain ⟨rfl, rfl⟩ := hn
      exact hl
  · intro h
    exact ⟨i, by rw [List.getElem?_enum, h]; rfl⟩

/-- The indices of an enumeration are strictly increasing. -/
theorem pairwise_fst_lt_enumFrom {β : Type} :
    ∀ (l : List β) (n : Nat),
      (List.enumFrom n l).Pairwise (fun p q => p.1 < q.1)
  | [], _ => List.Pairwise.nil
  | b :: bs, n => by
    rw [List.enumFrom_cons, List.pairwise_cons]
    refine ⟨?_, pairwise_fst_lt_enumFrom bs (n + 1)⟩
    rintro ⟨q1, q2⟩ hq
    have := (List.mem_enumFrom hq).1
    simpa using by omega

/-- Pairwise over a `flatMap`: within each block and across blocks. -/
theorem pairwise_flatMap_iff {β γ : Type} {R : γ → γ → Prop} {l : List β}
    {f : β → List γ} :
    List.Pairwise R (l.flatMap f) ↔
      (∀ a ∈ l, List.Pairwise R (f a)) ∧
      List.Pairwise (fun a b => ∀ x ∈ f a, ∀ y ∈ f b, R x y) l := by
  rw [List.flatMap_def, List.pairwise_flatten]
  constructor
  · rintro ⟨h1, h2⟩
    exact ⟨fun a ha => h1 _ (List.mem_map_of_mem f ha), List.pairwise_map.mp h2⟩
  · rintro ⟨h1, h2⟩
    refine ⟨?_, List.pairwise_map.mpr h2⟩
    intro l' hl'
    obtain ⟨a, ha, rfl⟩ := List.mem_map.mp hl'
    exact h1 a ha

/-- An empty query trims to the empty string. -/
theorem jsTrim_nil : jsTrim [] = [] := rfl

/-- A query with a nonempty trim is nonempty. -/
theorem ne_nil_of_jsTrim_ne_nil {q : List Char} (h : jsTrim q ≠ []) :
    q ≠ [] := by
  intro hq
  exact h (by rw [hq]; rfl)

/-- A nonempty-pattern occurrence fits inside the text. -/
theorem substrOcc_length_le {text pat : List Char} {j : Nat} (hp : pat ≠ [])
    (h : substrOcc text pat j = true) : j + pat.length ≤ text.length := by
  have hpre : pat <+: text.drop j := List.isPrefixOf_iff_prefix.mp h
  have hlen := hpre.length_le
  rw [List.length_drop] at hlen
  have hplen : 0 < pat.length := List.length_pos.mpr hp
  omega

/-- C3: in substring mode, for every fragment the matcher returns all
non-overlapping occurrences of the query from left to right — matches are
ordered by fragment then position, successive matches in one fragment are
at least `query.length` apart (the cursor advances past each match's end),
every match is a genuine occurrence, and every occurrence is covered by a
reported match starting at or before it; in particular `"banana"` with
query `"ana"` (case-insensitive) yields exactly one match, at offset 1. -/
theorem substring_mode_nonoverlapping
    (items : List (List Char)) (q : List Char) (matchCase : Bool)
    (h : jsTrim q ≠ []) :
    (List.Pairwise (fun m₁ m₂ : SMatch => m₁.itemIndex < m₂.itemIndex ∨
        (m₁.itemIndex = m₂.itemIndex ∧
          m₁.matchIndex + q.length ≤ m₂.matchIndex))
      (searchInPage items q matchCase false)) ∧
    (∀ m ∈ searchInPage items q matchCase false,
      items[m.itemIndex]? = some m.fullText ∧
      substrOcc (if matchCase then m.fullText else lowerStr m.fullText)
        (if matchCase then q else lowerStr q) m.matchIndex = true ∧
      m.text = (m.fullText.drop m.matchIndex).take q.length) ∧
    (∀ i t j, items[i]? = some t →
      substrOcc (if matchCase then t else lowerStr t)
        (if matchCase then q else lowerStr q) j = true →
      ∃ m ∈ searchInPage items q matchCase false,
        m.itemIndex = i ∧ m.matchIndex ≤ j ∧ j < m.matchIndex + q.length) ∧
    searchInPage [("banana").toList] (("ana").toList) false false =
      [⟨0, 1, ("ana").toList, ("banana").toList⟩] := by
  have hq : q ≠ [] := ne_nil_of_jsTrim_ne_nil h
  have hqlen : 0 < q.length := List.length_pos.mpr hq
  have hnq : (if matchCase then q else lowerStr q) ≠ [] := by
    cases matchCase <;> simp [lowerStr, hq]
  have hnqlen : (if matchCase then q else lowerStr q).length = q.length := by
    cases matchCase <;> simp [lowerStr]
  have hunfold : searchInPage items q matchCase false =
      items.enum.flatMap (fun p =>
        if p.2 = [] then [] else
        (scanPositions
            (substrOcc (if matchCase then p.2 else lowerStr p.2)
              (if matchCase then q else lowerStr q))
            p.2.length q.length 0).map
          (fun m => ⟨p.1, m, (p.2.drop m).take q.length, p.2⟩)) := by
    rw [searchInPage, if_neg h]
    simp only [Bool.false_eq_true, if_false]
  have hitem : ∀ (p : Nat × List Char) (m : SMatch),
      m ∈ (if p.2 = [] then ([] : List SMatch) else
        (scanPositions
            (substrOcc (if matchCase then p.2 else lowerStr p.2)
              (if matchCase then q else lowerStr q))
            p.2.length q.length 0).map
          (fun m => ⟨p.1, m, (p.2.drop m).take q.length, p.2⟩)) →
      m.itemIndex = p.1 := by
    intro p m hm
    by_cases hnil : p.2 = []
    · simp [hnil] at hm
    · rw [if_neg hnil] at hm
      obtain ⟨pos, _, rfl⟩ := List.mem_map.mp hm
      rfl
  refine ⟨?_, ?_, ?_, by decide⟩
  · rw [hunfold, pairwise_flatMap_iff]
    constructor
    · intro p _
      by_cases hnil : p.2 = []
      · simp [hnil]
      · rw [if_neg hnil]
        rw [List.pairwise_map]
        exact scanPositions_pairwise.imp (fun hgap => Or.inr ⟨rfl, hgap⟩)
    · have henum := pairwise_fst_lt_enumFrom items 0
      rw [show items.enum = List.enumFrom 0 items from rfl]
      refine henum.imp ?_
      intro p₁ p₂ hlt x hx y hy
      rw [hitem p₁ x hx, hitem p₂ y hy]
      exact Or.inl hlt
  · intro m hm
    rw [hunfold] at hm
    obtain ⟨p, hpmem, hmin⟩ := List.mem_flatMap.mp hm
    obtain ⟨i, t⟩ := p
    by_cases hnil : t = []
    · simp [hnil] at hmin
    · rw [if_neg hnil] at hmin
      obtain ⟨pos, hpos, rfl⟩ := List.mem_map.mp hmin
      refine ⟨mem_enum_iff.mp hpmem, ?_, rfl⟩
      exact (scanPositions_sound hpos).2.2
  · intro i t j hit hocc
    have hfit := substrOcc_length_le hnq hocc
    have htlen : (if matchCase then t else lowerStr t).length = t.length := by
      cases matchCase <;> simp [lowerStr]
    have hjle : j ≤ t.length := by
      rw [htlen, hnqlen] at hfit
      omega
    have htne : t ≠ [] := by
      intro hteq
      subst hteq
      have h0 : (if matchCase then ([] : List Char) else lowerStr []).length = 0 := by
        cases matchCase <;> simp [lowerStr]
      rw [h0, hnqlen] at hfit
      omega
    obtain ⟨pos, hpos, h1, h2⟩ :=
      @scanPositions_complete
        (substrOcc (if matchCase then t else lowerStr t)
          (if matchCase then q else lowerStr q))
        t.length q.length 0 j hqlen (Nat.zero_le _) hjle hocc
    refine ⟨⟨i, pos, (t.drop pos).take q.length, t⟩, ?_, rfl, h1, h2⟩
    rw [hunfold]
    refine List.mem_flatMap.mpr ⟨(i, t), mem_enum_iff.mpr hit, ?_⟩
    rw [if_neg htne]
    exact List.mem_map.mpr ⟨pos, hpos, rfl⟩

/-- Witness for C3, extracting the concrete `"banana"` / `"ana"` instance
from the theorem. -/
theorem substring_mode_nonoverlapping_witness :
    searchInPage [("banana").toList] (("ana").toList) false false =
      [⟨0, 1, ("ana").toList, ("banana").toList⟩] :=
  (substring_mode_nonoverlapping [("banana").toList] (("ana").toList) false
    (by decide)).2.2.2

/-- A whole-word occurrence fits inside the fragment. -/
theorem wwOccAt_length_le {t q : List Char} {matchCase : Bool} {p : Nat}
    (h : wwOccAt t q matchCase p = true) : p + q.length ≤ t.length := by
  unfold wwOccAt at h
  simp only [Bool.and_eq_true, decide_eq_true_eq] at h
  exact h.1.1.1

/-- C4: in whole-word mode, matching is word-boundary-delimited matching of
the literal query (the regex is built from the escaped query, so it matches
the query text literally, never as a pattern): every reported match is a
boundary-delimited literal occurrence, lies wholly inside a single fragment
(a match never spans fragment boundaries), and every boundary-delimited
occurrence is covered by a reported match; in particular the fragment
`"cat category catalog"` with query `"cat"` yields exactly one match — the
standalone `"cat"` at offset 0 — not three. -/
theorem whole_word_mode
    (items : List (List Char)) (q : List Char) (matchCase : Bool)
    (h : jsTrim q ≠ []) :
    (∀ m ∈ searchInPage items q matchCase true,
      items[m.itemIndex]? = some m.fullText ∧
      wwOccAt m.fullText q matchCase m.matchIndex = true ∧
      m.matchIndex + q.length ≤ m.fullText.length ∧
      m.text = (m.fullText.drop m.matchIndex).take q.length) ∧
    (∀ i t j, items[i]? = some t → wwOccAt t q matchCase j = true →
      ∃ m ∈ searchInPage items q matchCase true,
        m.itemIndex = i ∧ m.matchIndex ≤ j ∧ j < m.matchIndex + q.length) ∧
    searchInPage [("cat category catalog").toList] (("cat").toList)
        false true =
      [⟨0, 0, ("cat").toList, ("cat category catalog").toList⟩] := by
  have hq : q ≠ [] := ne_nil_of_jsTrim_ne_nil h
  have hqlen : 0 < q.length := List.length_pos.mpr hq
  have hunfold : searchInPage items q matchCase true =
      items.enum.flatMap (fun p =>
        if p.2 = [] then [] else
        (scanPositions (wwOccAt p.2 q matchCase) p.2.length q.length 0).map
          (fun m => ⟨p.1, m, (p.2.drop m).take q.length, p.2⟩)) := by
    rw [searchInPage, if_neg h]
    simp only [if_true]
  refine ⟨?_, ?_, by decide⟩
  · intro m hm
    rw [hunfold] at hm
    obtain ⟨p, hpmem, hmin⟩ := List.mem_flatMap.mp hm
    obtain ⟨i, t⟩ := p
    by_cases hnil : t = []
    · simp [hnil] at hmin
    · rw [if_neg hnil] at hmin
      obtain ⟨pos, hpos, rfl⟩ := List.mem_map.mp hmin
      have hocc := (scanPositions_sound hpos).2.2
      exact ⟨mem_enum_iff.mp hpmem, hocc, wwOccAt_length_le hocc, rfl⟩
  · intro i t j hit hocc
    have hfit := wwOccAt_length_le hocc
    have htne : t ≠ [] := by
      intro hteq
      subst hteq
      rw [List.length_nil] at hfit
      omega
    obtain ⟨pos, hpos, h1, h2⟩ :=
      @scanPositions_complete (wwOccAt t q matchCase) t.length q.length 0 j
        hqlen (Nat.zero_le _) (by omega) hocc
    refine ⟨⟨i, pos, (t.drop pos).take q.length, t⟩, ?_, rfl, h1, h2⟩
    rw [hunfold]
    refine List.mem_flatMap.mpr ⟨(i, t), mem_enum_iff.mpr hit, ?_⟩
    rw [if_neg htne]
    exact List.mem_map.mpr ⟨pos, hpos, rfl⟩

/-- Witness for C4, extracting the concrete
`"cat category catalog"` / `"cat"` instance from the theorem. -/
theorem whole_word_mode_witness :
    searchInPage [("cat category catalog").toList] (("cat").toList)
        false true =
      [⟨0, 0, ("cat").toList, ("cat category catalog").toList⟩] :=
  (whole_word_mode [("cat category catalog").toList] (("cat").toList) false
    (by decide)).2.2

/-- C7 (bug demonstration): `highlightTextInElement` splices the raw,
unescaped original text around the highlight spans (only the matched text
goes through `escapeHtml`), so for a fragment whose text contains markup —
here `"a<b"`, highlighted on the single match `"a"` at offset 0 — the
assigned `innerHTML` ends in the raw `"<b"`, which the HTML tokenizer
consumes as an (unterminated) tag; the following `clearHighlightsInElement`
therefore restores `"a"`, not the original `"a<b"`. -/
theorem highlight_clear_loses_markup_text :
    textContent (clearHighlightsInElement
      (highlightTextInElement (setTextContent (("a<b").toList))
        [⟨0, 0, ("a").toList, ("a<b").toList⟩] (-1) [])) = ("a").toList ∧
    ("a").toList ≠ ("a<b").toList := by
  constructor
  · decide
  · decide

/-- A query that is all whitespace trims to the empty string. -/
theorem jsTrim_eq_nil_of_all_space {q : List Char}
    (h : ∀ c ∈ q, isJsSpace c = true) : jsTrim q = [] := by
  have h1 : q.dropWhile isJsSpace = [] := by
    rw [List.dropWhile_eq_nil_iff]
    intro c hc
    simp [h c hc]
  simp [jsTrim, h1]

/-- C9: For every fragment list and every combination of the
case-sensitivity and whole-word flags, a query that is empty or consists
only of whitespace makes every matcher return an empty match sequence (the
guard `if (!query.trim()) return []` fires), and no error is raised (the
functions are total). -/
theorem empty_query_yields_no_matches
    (items : List (List Char)) (q : List Char) (matchCase wholeWords : Bool)
    (h : ∀ c ∈ q, isJsSpace c = true) :
    searchInPage items q matchCase wholeWords = [] ∧
    searchInPagePDFJS items q = [] ∧
    searchInPageAdvanced items q = [] := by
  have ht := jsTrim_eq_nil_of_all_space h
  refine ⟨?_, ?_, ?_⟩ <;> simp [searchInPage, searchInPagePDFJS,
    searchInPageAdvanced, ht]

/-- Witness for C9 at the concrete whitespace query `"  "`. -/
theorem empty_query_yields_no_matches_witness :
    searchInPage [("Hello world").toList] (("  ").toList) false false = [] ∧
    searchInPagePDFJS [("Hello world").toList] (("  ").toList) = [] ∧
    searchInPageAdvanced [("Hello world").toList] (("  ").toList) = [] :=
  empty_query_yields_no_matches [("Hello world").toList] (("  ").toList)
    false false (by decide)

/-- C1 counterexample: on fragments `["Hel", "lo wor", "ld"]` with query
`"lo wo"` the cross-fragment matcher returns exactly one match, but that
match has `startFragmentIndex = 1`, `endFragmentIndex = 1` and
`involvedFragments = {1}`, not the claimed `(0, 1, {0, 1})`: the occurrence
starts at concatenated position 3, the first character of fragment 1. -/
theorem cross_fragment_example_counterexample :
    (searchInPageAdvanced [("Hel").toList, ("lo wor").toList, ("ld").toList]
        (("lo wo").toList)).map
      (fun m => (m.startItemIndex, m.endItemIndex, m.involvedItems)) =
      [(1, 1, [1])] ∧
    ((1 : Nat), (1 : Nat), [1]) ≠ ((0 : Nat), (1 : Nat), [0, 1]) := by
  constructor
  · decide
  · decide

/-- C1 amended: on fragments `["Hel", "lo wor", "ld"]` with query `"lo wo"`
the cross-fragment matcher returns exactly one match — `"lo wo"` found at
concatenated offset 3, lying wholly inside fragment 1 (`"lo wor"`), with
`startFragmentIndex = 1`, `endFragmentIndex = 1`,
`involvedFragments = {1}`, start offset 0 and end offset 4 within that
fragment. -/
theorem cross_fragment_example_match :
    searchInPageAdvanced [("Hel").toList, ("lo wor").toList, ("ld").toList]
      (("lo wo").toList) =
      [⟨("lo wo").toList, 3, 8, 1, 1, [1], 0, 4⟩] := by
  decide

/-- Every element of the zoom level table lies in `[0.1, 10]`. -/
theorem mem_zoomLevels_bounds {x : ℚ} (h : x ∈ zoomLevels) :
    1/10 ≤ x ∧ x ≤ 10 := by
  simp only [zoomLevels, List.mem_cons, List.not_mem_nil, or_false] at h
  rcases h with rfl | rfl | rfl | rfl | rfl | rfl | rfl | rfl | rfl | rfl |
    rfl | rfl | rfl | rfl <;> norm_num

/-- C10: every zoom entry point keeps the scale within `[0.1, 10]`:
`handleScaleChange` clamps, `handleZoomIn` never exceeds 10,
`handleZoomOut` never goes below 0.1, and the fit-to-width / fit-to-page /
auto-zoom computations clamp their result, so the scale passed to page
rendering always lies in `[0.1, 10]`. -/
theorem zoom_scale_always_in_range (s cw ch : ℚ) :
    (1/10 ≤ clampScale s ∧ clampScale s ≤ 10) ∧
    (1/10 ≤ handleZoomIn s ∧ handleZoomIn s ≤ 10) ∧
    (1/10 ≤ handleZoomOut s ∧ handleZoomOut s ≤ 10) ∧
    (1/10 ≤ handleFitToWidth cw ∧ handleFitToWidth cw ≤ 10) ∧
    (1/10 ≤ handleFitToPage cw ch ∧ handleFitToPage cw ch ≤ 10) ∧
    (1/10 ≤ handleAutoZoom cw ch ∧ handleAutoZoom cw ch ≤ 10) := by
  have hclamp : ∀ x : ℚ, 1/10 ≤ clampScale x ∧ clampScale x ≤ 10 := by
    intro x
    constructor
    · exact le_max_left _ _
    · exact max_le (by norm_num) (min_le_left _ _)
  refine ⟨hclamp s, ?_, ?_, hclamp _, hclamp _, hclamp _⟩
  · unfold handleZoomIn
    cases hfind : zoomLevels.find? (fun l => decide (s < l)) with
    | some l =>
      exact mem_zoomLevels_bounds (List.mem_of_find?_eq_some hfind)
    | none =>
      have h10 : ¬ (s < 10) := by
        have hmem : (10 : ℚ) ∈ zoomLevels := by simp [zoomLevels]
        have := List.find?_eq_none.mp hfind _ hmem
        simpa using this
      push_neg at h10
      constructor
      · have : (1/10 : ℚ) ≤ 10 := by norm_num
        have h11 : (1/10 : ℚ) ≤ s * (11/10) := by nlinarith
        exact le_min this h11
      · exact min_le_left _ _
  · unfold handleZoomOut
    cases hfind : zoomLevels.reverse.find? (fun l => decide (l < s)) with
    | some l =>
      have hl : l ∈ zoomLevels := by
        have := List.mem_of_find?_eq_some hfind
        exact List.mem_reverse.mp this
      exact mem_zoomLevels_bounds hl
    | none =>
      have h01 : ¬ ((1/10 : ℚ) < s) := by
        have hmem : (1/10 : ℚ) ∈ zoomLevels.reverse := by
          rw [List.mem_reverse]; simp [zoomLevels]
        have := List.find?_eq_none.mp hfind _ hmem
        simpa using this
      push_neg at h01
      constructor
      · exact le_max_left _ _
      · have h9 : s * (9/10) ≤ 10 := by nlinarith
        exact max_le (by norm_num) h9

/-- C8: for every run transform `R` and viewport transform `V`, with
`tx = V ∘ R` (2D affine composition, as computed by `Util.transform`), the
projection yields `angle = atan2(tx[1], tx[0])`,
`scaleX = √(tx[0]² + tx[1]²)`, `scaleY = √(tx[2]² + tx[3]²)`,
`fontSize = scaleY`, horizontal position `tx[4]` and vertical position
`tx[5] − fontSize`.  The function is pure, so determinism is immediate. -/
theorem projectTextItem_formulas (V R : Mat6) :
    (projectTextItem V R).angle =
      atan2 (tfCompose V R).m1 (tfCompose V R).m0 ∧
    (projectTextItem V R).scaleX =
      Real.sqrt ((tfCompose V R).m0 ^ 2 + (tfCompose V R).m1 ^ 2) ∧
    (projectTextItem V R).scaleY =
      Real.sqrt ((tfCompose V R).m2 ^ 2 + (tfCompose V R).m3 ^ 2) ∧
    (projectTextItem V R).fontSize = (projectTextItem V R).scaleY ∧
    (projectTextItem V R).left = (tfCompose V R).m4 ∧
    (projectTextItem V R).top =
      (tfCompose V R).m5 - (projectTextItem V R).fontSize := by
  refine ⟨rfl, ?_, ?_, rfl, rfl, rfl⟩ <;>
    simp [projectTextItem, sq]

/-- C6: when the total match count is zero, `handleSearchNext` and
`handleSearchPrev` leave the current index unchanged; when it is positive
and the current index is in range, `next` advances by one and `prev`
retreats by one, both modulo the total, and both results stay in
`[0, total)`. -/
theorem search_navigation_wraparound {α : Type}
    (st : List (Nat × List α)) (cur : Nat) :
    (totalCount st = 0 →
      handleSearchNext st cur = cur ∧ handleSearchPrev st cur = cur) ∧
    (0 < totalCount st → cur < totalCount st →
      handleSearchNext st cur = (cur + 1) % totalCount st ∧
      handleSearchNext st cur < totalCount st ∧
      handleSearchPrev st cur = (cur + totalCount st - 1) % totalCount st ∧
      handleSearchPrev st cur < totalCount st) := by
  constructor
  · intro h0
    constructor <;> simp [handleSearchNext, handleSearchPrev, h0]
  · intro hpos hcur
    have hne : totalCount st ≠ 0 := Nat.pos_iff_ne_zero.mp hpos
    refine ⟨?_, ?_, ?_, ?_⟩
    · simp [handleSearchNext, hne]
    · simp only [handleSearchNext, hne, if_false]
      exact Nat.mod_lt _ hpos
    · simp only [handleSearchPrev, hne, if_false]
      by_cases hz : cur = 0
      · subst hz
        rw [Nat.mod_eq_of_lt (by omega)]
        simp
      · simp only [hz, if_false]
        rw [show cur + totalCount st - 1 = (cur - 1) + totalCount st by omega,
          Nat.add_mod_right, Nat.mod_eq_of_lt (by omega)]
    · simp only [handleSearchPrev, hne, if_false]
      by_cases hz : cur = 0 <;> simp [hz] <;> omega

/-- Inserting into a page-sorted list is a permutation of consing. -/
theorem insertByPage_perm {α : Type} (x : Nat × List α) :
    ∀ l : List (Nat × List α), (insertByPage x l).Perm (x :: l)
  | [] => List.Perm.refl _
  | y :: ys => by
    unfold insertByPage
    by_cases h : x.1 < y.1
    · simp [h]
    · simp only [h, if_false]
      exact ((insertByPage_perm x ys).cons y).trans (List.Perm.swap _ _ _)

/-- The stable page sort is a permutation of its input. -/
theorem sortByPage_perm {α : Type} :
    ∀ l : List (Nat × List α), (sortByPage l).Perm l
  | [] => List.Perm.refl _
  | x :: xs => by
    show (insertByPage x (sortByPage xs)).Perm (x :: xs)
    exact (insertByPage_perm x (sortByPage xs)).trans
      ((sortByPage_perm xs).cons x)

/-- Inserting into a `≤`-page-sorted list keeps it sorted. -/
theorem insertByPage_pairwise {α : Type} (x : Nat × List α) :
    ∀ l : List (Nat × List α),
      l.Pairwise (fun a b => a.1 ≤ b.1) →
      (insertByPage x l).Pairwise (fun a b => a.1 ≤ b.1)
  | [], _ => List.pairwise_singleton _ _
  | y :: ys, h => by
    rw [List.pairwise_cons] at h
    unfold insertByPage
    by_cases hk : x.1 < y.1
    · simp only [hk, if_true]
      rw [List.pairwise_cons]
      refine ⟨?_, List.pairwise_cons.mpr h⟩
      intro z hz
      rcases List.mem_cons.mp hz with rfl | hz
      · exact le_of_lt hk
      · exact (le_of_lt hk).trans (h.1 z hz)
    · simp only [hk, if_false]
      rw [List.pairwise_cons]
      refine ⟨?_, insertByPage_pairwise x ys h.2⟩
      intro z hz
      have hz' := (insertByPage_perm x ys).mem_iff.mp hz
      rcases List.mem_cons.mp hz' with rfl | hz'
      · exact le_of_not_lt hk
      · exact h.1 z hz'

/-- The stable page sort produces a `≤`-page-sorted list. -/
theorem sortByPage_pairwise {α : Type} :
    ∀ l : List (Nat × List α),
      (sortByPage l).Pairwise (fun a b => a.1 ≤ b.1)
  | [] => List.Pairwise.nil
  | x :: xs => insertByPage_pairwise x (sortByPage xs) (sortByPage_pairwise xs)

/-- Replacing the entry found by `findIndex` with a same-page entry leaves
the page-number sequence unchanged. -/
theorem findPageIdx_some {α : Type} (ms : List α) :
    ∀ (st : List (Nat × List α)) (p i : Nat),
      findPageIdx st p = some i →
      (st.set i (p, ms)).map Prod.fst = st.map Prod.fst
  | [], p, i, h => by simp [findPageIdx] at h
  | q :: rest, p, i, h => by
    unfold findPageIdx at h
    by_cases hq : q.1 = p
    · simp only [hq, if_true, Option.some.injEq] at h
      subst h
      simp [hq]
    · simp only [hq, if_false, Option.map_eq_some'] at h
      obtain ⟨i', hi', rfl⟩ := h
      simpa using findPageIdx_some ms rest p i' hi'

/-- If a page is absent from the collection, `findIndex` fails. -/
theorem findPageIdx_none {α : Type} :
    ∀ (st : List (Nat × List α)) (p : Nat),
      p ∉ st.map Prod.fst → findPageIdx st p = none
  | [], _, _ => rfl
  | q :: rest, p, h => by
    simp only [List.map_cons, List.mem_cons, not_or] at h
    unfold findPageIdx
    have hq : ¬ q.1 = p := fun hc => h.1 hc.symm
    simp [hq, findPageIdx_none rest p h.2]

/-- Every upsert keeps the backing collection sorted by ascending page
number. -/
theorem updateSearchMatches_pairwise {α : Type}
    (st : List (Nat × List α)) (p : Nat) (ms : List α)
    (h : st.Pairwise (fun a b => a.1 ≤ b.1)) :
    (updateSearchMatches st p ms).Pairwise (fun a b => a.1 ≤ b.1) := by
  unfold updateSearchMatches
  cases hidx : findPageIdx st p with
  | some i =>
    have hkeys := findPageIdx_some ms st p i hidx
    have h' : (st.map Prod.fst).Pairwise (· ≤ ·) := by
      rw [List.pairwise_map] at *
      exact h
    rw [← List.pairwise_map (f := Prod.fst)] at *
    rwa [hkeys]
  | none => exact sortByPage_pairwise _

/-- Applying fresh-page reports from a state accumulates exactly those
entries, up to order. -/
theorem applyReports_perm_aux {α : Type} :
    ∀ (reports st : List (Nat × List α)),
      (st.map Prod.fst).Nodup →
      (reports.map Prod.fst).Nodup →
      (∀ k ∈ st.map Prod.fst, k ∉ reports.map Prod.fst) →
      (reports.foldl (fun acc r => updateSearchMatches acc r.1 r.2) st).Perm
        (st ++ reports)
  | [], st, _, _, _ => by simp
  | r :: rs, st, hstN, hrsN, hdis => by
    have hr_not : r.1 ∉ st.map Prod.fst := by
      intro hmem
      exact hdis r.1 hmem (by simp)
    have hupd : updateSearchMatches st r.1 r.2 = sortByPage (st ++ [r]) := by
      unfold updateSearchMatches
      rw [findPageIdx_none st r.1 hr_not]
    have hps : (sortByPage (st ++ [(r.1, r.2)])).Perm (st ++ [r]) := by
      simpa using sortByPage_perm (st ++ [r])
    have hkeysPerm : ((sortByPage (st ++ [r])).map Prod.fst).Perm
        ((st ++ [r]).map Prod.fst) := (sortByPage_perm (st ++ [r])).map _
    simp only [List.map_cons, List.nodup_cons] at hrsN
    have hstN' : ((sortByPage (st ++ [r])).map Prod.fst).Nodup := by
      refine hkeysPerm.nodup_iff.mpr ?_
      simp only [List.map_append, List.map_cons, List.map_nil]
      rw [List.nodup_append]
      refine ⟨hstN, by simp, ?_⟩
      intro a ha hb
      simp only [List.mem_singleton] at hb
      subst hb
      exact hr_not ha
    have hdis' : ∀ k ∈ (sortByPage (st ++ [r])).map Prod.fst,
        k ∉ rs.map Prod.fst := by
      intro k hk
      have hk' := hkeysPerm.mem_iff.mp hk
      simp only [List.map_append, List.map_cons, List.map_nil,
        List.mem_append, List.mem_singleton] at hk'
      rcases hk' with hk' | rfl
      · intro hmem
        exact hdis k hk' (by simp [hmem])
      · exact hrsN.1
    have hfold : ((r :: rs).foldl (fun acc x => updateSearchMatches acc x.1 x.2) st)
        = rs.foldl (fun acc x => updateSearchMatches acc x.1 x.2)
            (sortByPage (st ++ [r])) := by
      simp [List.foldl_cons, hupd]
    have hrec := applyReports_perm_aux rs (sortByPage (st ++ [r])) hstN' hrsN.2 hdis'
    have happ : ((st ++ [r]) ++ rs) = st ++ (r :: rs) := by simp
    rw [hfold]
    exact hrec.trans (happ ▸ hps.append_right rs)

/-- The aggregate built from distinct-page reports is a permutation of the
reports themselves. -/
theorem applyReports_perm {α : Type} (reports : List (Nat × List α))
    (h : (reports.map Prod.fst).Nodup) :
    (applyReports reports).Perm reports := by
  have := applyReports_perm_aux reports [] (by simp) h (by simp)
  simpa [applyReports] using this

/-- The aggregate is always `≤`-sorted by page number. -/
theorem applyReports_pairwise {α : Type} (reports : List (Nat × List α)) :
    (applyReports reports).Pairwise (fun a b => a.1 ≤ b.1) := by
  suffices h : ∀ (rs st : List (Nat × List α)),
      st.Pairwise (fun a b => a.1 ≤ b.1) →
      (rs.foldl (fun acc r => updateSearchMatches acc r.1 r.2) st).Pairwise
        (fun a b => a.1 ≤ b.1) by
    exact h reports [] List.Pairwise.nil
  intro rs
  induction rs with
  | nil => intro st hst; simpa using hst
  | cons r rs ih =>
    intro st hst
    exact ih _ (updateSearchMatches_pairwise st r.1 r.2 hst)

/-- A `≤`-page-sorted collection with distinct page numbers is strictly
sorted. -/
theorem pairwise_lt_of_le_nodup {α : Type} {l : List (Nat × List α)}
    (hle : l.Pairwise (fun a b => a.1 ≤ b.1))
    (hN : (l.map Prod.fst).Nodup) :
    l.Pairwise (fun a b => a.1 < b.1) := by
  have hN' : (l.map Prod.fst).Pairwise (fun a b => a ≠ b) := hN
  rw [List.pairwise_map] at hN'
  exact (hle.and hN').imp (fun h => lt_of_le_of_ne h.1 h.2)

/-- C5: for every sequence of `reportPageMatches` calls the backing
collection stays sorted by ascending page number after each upsert, and —
once a given set of pages has reported (each page once) — the final sorted
aggregate and the total match count are independent of the order in which
the pages reported. -/
theorem search_reporting_order_independent {α : Type}
    (reports reports' : List (Nat × List α)) :
    (applyReports reports).Pairwise (fun a b => a.1 ≤ b.1) ∧
    ((reports.map Prod.fst).Nodup → reports.Perm reports' →
      applyReports reports = applyReports reports' ∧
      totalCount (applyReports reports) = totalCount (applyReports reports')) := by
  refine ⟨applyReports_pairwise reports, ?_⟩
  intro hN hperm
  have hN' : (reports'.map Prod.fst).Nodup :=
    (hperm.map Prod.fst).nodup_iff.mp hN
  have h1 := applyReports_perm reports hN
  have h2 := applyReports_perm reports' hN'
  have hp : (applyReports reports).Perm (applyReports reports') :=
    (h1.trans hperm).trans h2.symm
  have hs1 : (applyReports reports).Pairwise (fun a b => a.1 < b.1) := by
    refine pairwise_lt_of_le_nodup (applyReports_pairwise reports) ?_
    exact (h1.map Prod.fst).nodup_iff.mpr hN
  have hs2 : (applyReports reports').Pairwise (fun a b => a.1 < b.1) := by
    refine pairwise_lt_of_le_nodup (applyReports_pairwise reports') ?_
    exact (h2.map Prod.fst).nodup_iff.mpr hN'
  have heq : applyReports reports = applyReports reports' :=
    List.eq_of_perm_of_sorted hp hs1 hs2
  exact ⟨heq, by rw [heq]⟩

/-- Witness for C5: page 3 reporting before page 1 yields the same sorted
aggregate and the same total as the opposite order. -/
theorem search_reporting_order_independent_witness :
    applyReports [((3 : Nat), [10]), (1, [20, 30])] =
      applyReports [((1 : Nat), [20, 30]), (3, [10])] ∧
    totalCount (applyReports [((3 : Nat), [10]), (1, [20, 30])]) = 3 :=
  ⟨((search_reporting_order_independent
      [((3 : Nat), [10]), (1, [20, 30])] [((1 : Nat), [20, 30]), (3, [10])]).2
      (by decide) (by decide)).1,
   by decide⟩

/-- Witness for C6: two pages reporting 2 and 3 matches (total 5); `next`
from global index 4 yields `(4+1) % 5 = 0` and `prev` from 0 yields
`(0+5-1) % 5 = 4`. -/
theorem search_navigation_wraparound_witness :
    totalCount [((1 : Nat), [0, 1]), (3, [0, 1, 2])] = 5 ∧
    handleSearchNext [((1 : Nat), [0, 1]), (3, [0, 1, 2])] 4 = 0 ∧
    handleSearchPrev [((1 : Nat), [0, 1]), (3, [0, 1, 2])] 0 = 4 := by
  refine ⟨by decide, ?_, ?_⟩
  · have h := (search_navigation_wraparound
      [((1 : Nat), [0, 1]), (3, [0, 1, 2])] 4).2 (by decide) (by decide)
    simpa using h.1
  · have h := (search_navigation_wraparound
      [((1 : Nat), [0, 1]), (3, [0, 1, 2])] 0).2 (by decide) (by decide)
    simpa using h.2.2.1

/-! ### Cross-fragment vs per-fragment scans (C2) -/

/-- Flat-mapping an enumeration started at `n` is flat-mapping the plain
enumeration with shifted indices. -/
theorem enumFrom_flatMap_shift {β γ : Type} :
    ∀ (ts : List β) (n : Nat) (f : Nat × β → List γ),
      (List.enumFrom n ts).flatMap f =
        ts.enum.flatMap (fun p => f (p.1 + n, p.2))
  | [], _, _ => rfl
  | t :: ts, n, f => by
    rw [List.enumFrom_cons, List.flatMap_cons,
      enumFrom_flatMap_shift ts (n + 1) f, List.enum_cons, List.flatMap_cons,
      enumFrom_flatMap_shift ts 1 (fun p => f (p.1 + n, p.2))]
    congr 1
    · show f (n, t) = f (0 + n, t)
      rw [Nat.zero_add]
    · refine congrArg (fun fn => ts.enum.flatMap fn) (funext (fun p => ?_))
      show f (p.1 + (n + 1), p.2) = f (p.1 + 1 + n, p.2)
      rw [show p.1 + (n + 1) = p.1 + 1 + n from by omega]

/-- Cons form of the character-to-fragment index. -/
theorem charToItemMap_cons (t : List Char) (ts : List (List Char)) :
    charToItemMap (t :: ts) =
      (List.range t.length).map (fun k => ((0 : Nat), k)) ++
        (charToItemMap ts).map (fun q => (q.1 + 1, q.2)) := by
  unfold charToItemMap
  rw [List.enum_cons, List.flatMap_cons, enumFrom_flatMap_shift, List.map_flatMap]
  congr 1
  refine congrArg (fun fn => ts.enum.flatMap fn) (funext (fun a => ?_))
  rw [List.map_map]
  rfl

/-- The parallel index has one entry per concatenated character. -/
theorem charToItemMap_length : ∀ (items : List (List Char)),
    (charToItemMap items).length = items.flatten.length
  | [] => rfl
  | t :: ts => by
    rw [charToItemMap_cons, List.length_append, List.length_map,
      List.length_map, List.length_range, List.flatten_cons,
      List.length_append, charToItemMap_length ts]

/-- Looking up the parallel index inside the first fragment. -/
theorem charToItemMap_get_lt {t : List Char} {ts : List (List Char)}
    {g : Nat} (hg : g < t.length) :
    (charToItemMap (t :: ts))[g]? = some (0, g) := by
  rw [charToItemMap_cons,
    List.getElem?_append_left (by simpa using hg),
    List.getElem?_map, List.getElem?_range hg]
  rfl

/-- Looking up the parallel index beyond the first fragment. -/
theorem charToItemMap_get_ge {t : List Char} {ts : List (List Char)}
    {g : Nat} (hg : t.length ≤ g) :
    (charToItemMap (t :: ts))[g]? =
      ((charToItemMap ts)[g - t.length]?).map (fun q => (q.1 + 1, q.2)) := by
  rw [charToItemMap_cons,
    List.getElem?_append_right (by simpa using hg),
    List.getElem?_map]
  congr 2
  simp

/-- A pattern no longer than the first part is a prefix of an append iff it
is a prefix of that part. -/
theorem isPrefixOf_append_of_le {pat a b : List Char}
    (h : pat.length ≤ a.length) :
    pat.isPrefixOf (a ++ b) = pat.isPrefixOf a := by
  rw [Bool.eq_iff_iff, List.isPrefixOf_iff_prefix, List.isPrefixOf_iff_prefix]
  constructor
  · intro hp
    rw [List.prefix_iff_eq_take] at *
    rw [List.take_append_eq_append_take, Nat.sub_eq_zero_of_le h,
      List.take_zero, List.append_nil] at hp
    exact hp
  · intro hp
    exact hp.trans (List.prefix_append a b)

/-- An occurrence fitting inside the left part of an append is an
occurrence in that part. -/
theorem substrOcc_append_left {a b pat : List Char} {j : Nat}
    (h : j + pat.length ≤ a.length) :
    substrOcc (a ++ b) pat j = substrOcc a pat j := by
  unfold substrOcc
  rw [List.drop_append_eq_append_drop, Nat.sub_eq_zero_of_le (by omega),
    List.drop_zero]
  exact isPrefixOf_append_of_le (by rw [List.length_drop]; omega)

/-- An occurrence at or beyond the left part of an append is an occurrence
in the right part. -/
theorem substrOcc_append_right {a b pat : List Char} {j : Nat}
    (h : a.length ≤ j) :
    substrOcc (a ++ b) pat j = substrOcc b pat (j - a.length) := by
  unfold substrOcc
  rw [List.drop_append_eq_append_drop, List.drop_eq_nil_of_le h,
    List.nil_append]

/-- A nonempty pattern never occurs in empty text. -/
theorem substrOcc_nil {pat : List Char} {j : Nat} (hp : pat ≠ []) :
    substrOcc [] pat j = false := by
  unfold substrOcc
  rw [List.drop_nil]
  cases hiff : pat.isPrefixOf ([] : List Char)
  · rfl
  · exact absurd (List.prefix_nil.mp (List.isPrefixOf_iff_prefix.mp hiff)) hp

/-- Case folding distributes over append. -/
theorem lowerStr_append (a b : List Char) :
    lowerStr (a ++ b) = lowerStr a ++ lowerStr b :=
  List.map_append _ a b

/-- Case folding preserves length. -/
theorem lowerStr_length (a : List Char) : (lowerStr a).length = a.length :=
  List.length_map a _

/-- Two strictly increasing lists of naturals with the same members are
equal. -/
theorem eq_of_pairwise_lt_of_mem_iff {l₁ l₂ : List Nat}
    (h₁ : List.Pairwise (· < ·) l₁) (h₂ : List.Pairwise (· < ·) l₂)
    (hm : ∀ a, a ∈ l₁ ↔ a ∈ l₂) : l₁ = l₂ := by
  haveI : IsAntisymm Nat (· < ·) :=
    ⟨fun a b hab hba => absurd (hab.trans hba) (lt_irrefl _)⟩
  have hn₁ : l₁.Nodup := h₁.imp (fun h => Nat.ne_of_lt h)
  have hn₂ : l₂.Nodup := h₂.imp (fun h => Nat.ne_of_lt h)
  exact List.eq_of_perm_of_sorted
    ((List.perm_ext_iff_of_nodup hn₁ hn₂).mpr hm) h₁ h₂

/-- A `filterMap` that always succeeds on the list's members is a `map`. -/
theorem filterMap_eq_map_of_some {β : Type} {l : List Nat}
    {f : Nat → Option β} {g : Nat → β}
    (h : ∀ a ∈ l, f a = some (g a)) : l.filterMap f = l.map g := by
  induction l with
  | nil => rfl
  | cons a l ih =>
    rw [List.filterMap_cons, h a (by simp), List.map_cons,
      ih (fun x hx => h x (by simp [hx]))]

/-- When no occurrence of the pattern in the concatenated page text spans a
fragment boundary, the concatenated scan, projected through the parallel
character-to-fragment index, reports exactly the per-fragment scans'
`(fragmentIndex, offset)` pairs, in the same order. -/
theorem globalScan_filterMap_eq (pat : List Char) (hp : pat ≠ []) :
    ∀ (items : List (List Char)),
      (∀ g ∈ globalScan items pat,
        ((charToItemMap items)[g]?).map Prod.fst =
          ((charToItemMap items)[g + pat.length - 1]?).map Prod.fst) →
      (globalScan items pat).filterMap (fun g => (charToItemMap items)[g]?) =
        localScanPairs items pat
  | [], _ => by
    have hempty : globalScan [] pat = [] := by
      rw [List.eq_nil_iff_forall_not_mem]
      intro g hg
      have h3 := (scanPositions_sound hg).2.2
      rw [show lowerStr (([] : List (List Char)).flatten) = [] from rfl,
        substrOcc_nil hp] at h3
      exact Bool.false_ne_true h3
    rw [hempty]
    rfl
  | t :: ts, hnospan => by
    have hplen : 0 < pat.length := List.length_pos.mpr hp
    have hGmem : ∀ g, g ∈ globalScan (t :: ts) pat ↔
        g ≤ t.length + ts.flatten.length ∧
        substrOcc (lowerStr t ++ lowerStr ts.flatten) pat g = true := by
      intro g
      unfold globalScan
      rw [scanPositions_one_mem, List.flatten_cons, lowerStr_append,
        List.length_append]
    have hBmem : ∀ b, b ∈ globalScan ts pat ↔
        b ≤ ts.flatten.length ∧
        substrOcc (lowerStr ts.flatten) pat b = true := by
      intro b
      unfold globalScan
      rw [scanPositions_one_mem]
    -- no occurrence both starts in `t` and runs past it
    have hns : ∀ g, g ∈ globalScan (t :: ts) pat → g < t.length →
        g + pat.length ≤ t.length := by
      intro g hg hglt
      by_contra hnot
      push_neg at hnot
      have hocc := ((hGmem g).mp hg).2
      have hbound := substrOcc_length_le hp hocc
      rw [List.length_append, lowerStr_length, lowerStr_length] at hbound
      have hei_lt : (g + pat.length - 1) - t.length <
          (charToItemMap ts).length := by
        rw [charToItemMap_length]
        omega
      have h2 := hnospan g hg
      rw [@charToItemMap_get_lt t ts g hglt,
        @charToItemMap_get_ge t ts (g + pat.length - 1) (by omega),
        List.getElem?_eq_getElem hei_lt] at h2
      simp at h2
    -- the concatenated scan splits into the scan of `t` and the shifted
    -- scan of the remaining fragments
    have hsplit : globalScan (t :: ts) pat =
        scanPositions (substrOcc (lowerStr t) pat) t.length 1 0 ++
          (globalScan ts pat).map (fun b => b + t.length) := by
      apply eq_of_pairwise_lt_of_mem_iff
      · unfold globalScan
        exact scanPositions_pairwise_lt (by norm_num)
      · rw [List.pairwise_append]
        refine ⟨scanPositions_pairwise_lt (by norm_num), ?_, ?_⟩
        · unfold globalScan
          exact (scanPositions_pairwise_lt (by norm_num)).map _
            (fun a b h => by omega)
        · intro a ha b hb
          have haA := scanPositions_one_mem.mp ha
          have ha_lt : a < t.length := by
            have := substrOcc_length_le hp haA.2
            rw [lowerStr_length] at this
            omega
          obtain ⟨b0, _, rfl⟩ := List.mem_map.mp hb
          omega
      · intro g
        rw [hGmem g, List.mem_append]
        constructor
        · rintro ⟨hgle, hocc⟩
          by_cases hcase : g + pat.length ≤ t.length
          · left
            rw [scanPositions_one_mem]
            rw [substrOcc_append_left (by rw [lowerStr_length]; exact hcase)]
              at hocc
            exact ⟨by omega, hocc⟩
          · right
            have hgmem := (hGmem g).mpr ⟨hgle, hocc⟩
            have hge : t.length ≤ g := by
              by_contra hlt
              push_neg at hlt
              exact hcase (hns g hgmem hlt)
            rw [substrOcc_append_right (by rw [lowerStr_length]; exact hge),
              lowerStr_length] at hocc
            rw [List.mem_map]
            refine ⟨g - t.length, ?_, by omega⟩
            rw [hBmem (g - t.length)]
            refine ⟨?_, hocc⟩
            have hbound := substrOcc_length_le hp hocc
            rw [lowerStr_length] at hbound
            omega
        · intro hor
          rcases hor with hA | hB
          · rw [scanPositions_one_mem] at hA
            obtain ⟨_, hocc⟩ := hA
            have hfit : g + pat.length ≤ t.length := by
              have := substrOcc_length_le hp hocc
              rw [lowerStr_length] at this
              exact this
            refine ⟨by omega, ?_⟩
            rw [substrOcc_append_left (by rw [lowerStr_length]; exact hfit)]
            exact hocc
          · obtain ⟨b0, hb0, rfl⟩ := List.mem_map.mp hB
            rw [hBmem b0] at hb0
            obtain ⟨hle, hocc⟩ := hb0
            refine ⟨by omega, ?_⟩
            rw [substrOcc_append_right (by rw [lowerStr_length]; omega),
              lowerStr_length,
              show b0 + t.length - t.length = b0 from by omega]
            exact hocc
    -- the no-span hypothesis descends to the remaining fragments
    have hnospan_ts : ∀ b ∈ globalScan ts pat,
        ((charToItemMap ts)[b]?).map Prod.fst =
          ((charToItemMap ts)[b + pat.length - 1]?).map Prod.fst := by
      intro b hb
      have hgmem : b + t.length ∈ globalScan (t :: ts) pat := by
        rw [hsplit, List.mem_append]
        right
        exact List.mem_map.mpr ⟨b, hb, rfl⟩
      have h2 := hnospan (b + t.length) hgmem
      rw [@charToItemMap_get_ge t ts (b + t.length) (by omega),
        @charToItemMap_get_ge t ts (b + t.length + pat.length - 1) (by omega),
        show b + t.length - t.length = b from by omega,
        show b + t.length + pat.length - 1 - t.length = b + pat.length - 1
          from by omega] at h2
      have hcomp : ∀ (o : Option (Nat × Nat)),
          Option.map Prod.fst (o.map (fun q => (q.1 + 1, q.2))) =
            Option.map (fun n => n + 1) (o.map Prod.fst) := by
        intro o
        cases o <;> rfl
      rw [hcomp, hcomp] at h2
      exact Option.map_injective Nat.succ_injective h2
    -- the first fragment's positions resolve inside fragment 0
    have hfirst : (scanPositions (substrOcc (lowerStr t) pat) t.length 1 0).filterMap
        (fun g => (charToItemMap (t :: ts))[g]?) =
        (scanPositions (substrOcc (lowerStr t) pat) t.length 1 0).map
          (fun j => ((0 : Nat), j)) := by
      apply filterMap_eq_map_of_some
      intro a ha
      have haA := scanPositions_one_mem.mp ha
      have ha_lt : a < t.length := by
        have := substrOcc_length_le hp haA.2
        rw [lowerStr_length] at this
        omega
      exact @charToItemMap_get_lt t ts a ha_lt
    -- the shifted positions resolve through the tail's index
    have hsecond : ((globalScan ts pat).map (fun b => b + t.length)).filterMap
        (fun g => (charToItemMap (t :: ts))[g]?) =
        (localScanPairs ts pat).map (fun q => (q.1 + 1, q.2)) := by
      rw [List.filterMap_map]
      rw [List.filterMap_congr (g := fun b =>
        ((charToItemMap ts)[b]?).map (fun q => (q.1 + 1, q.2))) ?hpt]
      case hpt =>
        intro b _
        show (charToItemMap (t :: ts))[b + t.length]? = _
        rw [@charToItemMap_get_ge t ts (b + t.length) (by omega),
          show b + t.length - t.length = b from by omega]
      rw [← List.map_filterMap,
        globalScan_filterMap_eq pat hp ts hnospan_ts]
    -- the per-fragment pairs also split head/tail
    have hRHS : localScanPairs (t :: ts) pat =
        (scanPositions (substrOcc (lowerStr t) pat) t.length 1 0).map
          (fun j => ((0 : Nat), j)) ++
          (localScanPairs ts pat).map (fun q => (q.1 + 1, q.2)) := by
      unfold localScanPairs
      rw [List.enum_cons, List.flatMap_cons, enumFrom_flatMap_shift,
        List.map_flatMap]
      congr 1
      refine congrArg (fun fn => ts.enum.flatMap fn) (funext (fun a => ?_))
      rw [List.map_map]
      rfl
    rw [hsplit, List.filterMap_append, hfirst, hsecond, hRHS]

/-- C2 counterexample: the flag-aware per-fragment scan (`searchInPage`) is
non-overlapping while the cross-fragment scan (`searchInPageAdvanced`)
advances by one, so on the single fragment `"aaa"` with query `"aa"` —
where no occurrence spans a fragment boundary — they report 1 and 2
matches respectively; the views are not derived from one shared scan and
their match counts diverge. -/
theorem scan_views_diverge_counterexample :
    (searchInPage [("aaa").toList] (("aa").toList) false false).length = 1 ∧
    (searchInPagePDFJS [("aaa").toList] (("aa").toList)).length = 2 ∧
    (searchInPageAdvanced [("aaa").toList] (("aa").toList)).length = 2 ∧
    (∀ m ∈ searchInPageAdvanced [("aaa").toList] (("aa").toList),
      m.startItemIndex = m.endItemIndex) := by
  refine ⟨?_, ?_, ?_, ?_⟩ <;> decide

/-- C2 amended: when no occurrence of the query in the concatenated page
text spans a fragment boundary (every cross-fragment match starts and ends
in the same fragment), the cross-fragment scan (`searchInPageAdvanced`)
and the overlapping per-fragment scan (`searchInPagePDFJS`) report the
same number of matches at the same `(fragment, offset)` positions, in the
same order. -/
theorem cross_fragment_agrees_with_overlapping_scan
    (items : List (List Char)) (q : List Char)
    (h1 : jsTrim q ≠ [])
    (h2 : ∀ m ∈ searchInPageAdvanced items q,
      m.startItemIndex = m.endItemIndex) :
    (searchInPageAdvanced items q).map
        (fun m => (m.startItemIndex, m.startCharIndex)) =
      (searchInPagePDFJS items q).map
        (fun m => (m.textDivIndex, m.start)) ∧
    (searchInPageAdvanced items q).length =
      (searchInPagePDFJS items q).length := by
  have hq : q ≠ [] := ne_nil_of_jsTrim_ne_nil h1
  have hnq : lowerStr q ≠ [] := by simpa [lowerStr] using hq
  have hnqlen : 0 < (lowerStr q).length := List.length_pos.mpr hnq
  have hadv : searchInPageAdvanced items q =
      (globalScan items (lowerStr q)).filterMap (fun matchIndex =>
        match (charToItemMap items)[matchIndex]?,
              (charToItemMap items)[matchIndex + (lowerStr q).length - 1]? with
        | some startMapping, some endMapping =>
          some ⟨(items.flatten.drop matchIndex).take
                  (matchIndex + (lowerStr q).length - matchIndex),
                matchIndex, matchIndex + (lowerStr q).length,
                startMapping.1, endMapping.1,
                dedupKeepFirst ((((charToItemMap items).take
                  (matchIndex + (lowerStr q).length)).drop matchIndex).map
                    Prod.fst),
                startMapping.2, endMapping.2⟩
        | _, _ => none) := by
    rw [searchInPageAdvanced, if_neg h1]
    rfl
  have hbounds : ∀ g ∈ globalScan items (lowerStr q),
      g < (charToItemMap items).length ∧
      g + (lowerStr q).length - 1 < (charToItemMap items).length := by
    intro g hg
    have hg' : g ∈ scanPositions
        (substrOcc (lowerStr items.flatten) (lowerStr q))
        items.flatten.length 1 0 := hg
    have hocc := (scanPositions_sound hg').2.2
    have hfit := substrOcc_length_le hnq hocc
    rw [lowerStr_length items.flatten] at hfit
    rw [charToItemMap_length]
    omega
  have hproj : (searchInPageAdvanced items q).map
      (fun m => (m.startItemIndex, m.startCharIndex)) =
      (globalScan items (lowerStr q)).filterMap
        (fun g => (charToItemMap items)[g]?) := by
    rw [hadv, List.map_filterMap]
    apply List.filterMap_congr
    intro g hg
    obtain ⟨h1g, h2g⟩ := hbounds g hg
    rw [List.getElem?_eq_getElem h1g, List.getElem?_eq_getElem h2g]
    rfl
  have hnospan : ∀ g ∈ globalScan items (lowerStr q),
      ((charToItemMap items)[g]?).map Prod.fst =
        ((charToItemMap items)[g + (lowerStr q).length - 1]?).map Prod.fst := by
    intro g hg
    obtain ⟨h1g, h2g⟩ := hbounds g hg
    obtain ⟨sm, hsm⟩ : ∃ sm, (charToItemMap items)[g]? = some sm :=
      ⟨_, List.getElem?_eq_getElem h1g⟩
    obtain ⟨em, hem⟩ : ∃ em,
        (charToItemMap items)[g + (lowerStr q).length - 1]? = some em :=
      ⟨_, List.getElem?_eq_getElem h2g⟩
    have hmem : (⟨(items.flatten.drop g).take
          (g + (lowerStr q).length - g),
        g, g + (lowerStr q).length,
        sm.1, em.1,
        dedupKeepFirst ((((charToItemMap items).take
          (g + (lowerStr q).length)).drop g).map Prod.fst),
        sm.2, em.2⟩ : AMatch)
        ∈ searchInPageAdvanced items q := by
      rw [hadv]
      exact List.mem_filterMap.mpr ⟨g, hg, by rw [hsm, hem]⟩
    have hfst := h2 _ hmem
    rw [hsm, hem]
    simpa using hfst
  have hmain := globalScan_filterMap_eq (lowerStr q) hnq items hnospan
  have hpdfjs : (searchInPagePDFJS items q).map
      (fun m => (m.textDivIndex, m.start)) =
      localScanPairs items (lowerStr q) := by
    rw [searchInPagePDFJS, if_neg h1, List.map_flatMap]
    unfold localScanPairs
    refine congrArg (fun fn => items.enum.flatMap fn) (funext (fun p => ?_))
    rw [List.map_map]
    rfl
  have heq : (searchInPageAdvanced items q).map
      (fun m => (m.startItemIndex, m.startCharIndex)) =
      (searchInPagePDFJS items q).map
        (fun m => (m.textDivIndex, m.start)) := by
    rw [hproj, hmain, hpdfjs]
  refine ⟨heq, ?_⟩
  have hlen := congrArg List.length heq
  simpa [List.length_map] using hlen

/-- Witness for C2 (amended): on fragments `["ab", "cd"]` with query `"b"`
no occurrence spans a boundary, and the two scans agree. -/
theorem cross_fragment_agrees_with_overlapping_scan_witness :
    (searchInPageAdvanced [("ab").toList, ("cd").toList] (("b").toList)).map
        (fun m => (m.startItemIndex, m.startCharIndex)) =
      (searchInPagePDFJS [("ab").toList, ("cd").toList] (("b").toList)).map
        (fun m => (m.textDivIndex, m.start)) :=
  (cross_fragment_agrees_with_overlapping_scan
    [("ab").toList, ("cd").toList] (("b").toList)
    (by decide) (by decide)).1

end PdfViewer
